import Mathlib

/-!
# Year countdown: the time-remaining calculation and the refresh ticker

A shallow embedding of `main.go`: `calculateTimeRemaining`, `updateCountdown`,
`startTicker`, `stopTicker`, together with the parts of Go's `time` package and of
float64 arithmetic that they call.

* float64 values are exact rationals; every float64 operation is the exact operation
  followed by `fl64`, rounding to the nearest binary64 number, ties to even.
* a `Time` is a civil date and time of day, the UTC offset in effect at that instant, and
  its `Location`; differences and comparisons are taken between instants.
* the clock read by `time.Now()` is an explicit argument `now`.
-/

namespace YearCountdown

/-! ## float64 arithmetic -/

/-- Nearest integer to `y`, a tie going to the even neighbour. -/
def roundHalfEven (y : ℚ) : ℤ :=
  if y - ⌊y⌋ < 1 / 2 then ⌊y⌋
  else if 1 / 2 < y - ⌊y⌋ then ⌊y⌋ + 1
  else if ⌊y⌋ % 2 = 0 then ⌊y⌋ else ⌊y⌋ + 1

/-- Binary exponent of the binade of `x`: `2 ^ binade x ≤ |x| < 2 ^ (binade x + 1)` for a
normal number, and the least normal exponent `-1022` for zero and subnormal magnitudes. -/
def binade (x : ℚ) : ℤ :=
  if x = 0 then -1022 else max (Int.log 2 |x|) (-1022)

/-- Spacing of the binary64 numbers in the binade of `x` (53 significant bits). -/
def ulp (x : ℚ) : ℚ := (2 : ℚ) ^ (binade x - 52)

/-- Rounding of a rational to the nearest binary64 number, ties to even. Results beyond the
largest finite binary64 number are not modelled; every value rounded below is smaller than
`2 ^ 53` in magnitude. -/
def fl64 (x : ℚ) : ℚ := roundHalfEven (x / ulp x) * ulp x

/-- Go's conversion `int(f)` of a float64 to an integer: the fraction is discarded. -/
def goInt (x : ℚ) : ℤ := if 0 ≤ x then ⌊x⌋ else ⌈x⌉

/-! ## package time -/

/-- Nanoseconds in `time.Second`. -/
def Second : ℤ := 1000000000

/-- Nanoseconds in `time.Hour`. -/
def Hour : ℤ := 3600000000000

/-- Least value of a `time.Duration`, an int64 count of nanoseconds. -/
def minDuration : ℤ := -9223372036854775808

/-- Greatest value of a `time.Duration`. -/
def maxDuration : ℤ := 9223372036854775807

/-- Method `Duration.Hours`: `hour := d / Hour; nsec := d % Hour;
return float64(hour) + float64(nsec)/(60*60*1e9)`, with Go's truncated `/` and `%`. -/
def Duration.Hours (d : ℤ) : ℚ :=
  let hour := Int.tdiv d Hour
  let nsec := Int.tmod d Hour
  fl64 (fl64 (hour : ℚ) + fl64 (fl64 (nsec : ℚ) / 3600000000000))

/-- A `time.Location` as `time.Date` reads it: the offset, in seconds east of UTC, in effect
at a local year, month, day, hour, minute and second. -/
structure Location where
  offsetAt : ℤ → ℤ → ℤ → ℤ → ℤ → ℤ → ℤ

/-- The location `time.UTC`. -/
def UTC : Location := ⟨fun _ _ _ _ _ _ => 0⟩

/-- The zone America/New_York as it was in 2024: UTC-4 from March 10 02:00 to November 3
02:00 local time, UTC-5 otherwise. -/
def newYork2024 : Location :=
  ⟨fun _ month day hour _ _ =>
    if 31002 ≤ (month * 100 + day) * 100 + hour ∧ (month * 100 + day) * 100 + hour < 110302
    then -14400 else -18000⟩

/-- A `time.Time`: civil date, time of day and nanoseconds within the second as its location
shows them, the offset in seconds east of UTC in effect at that instant, and the location. -/
structure Time where
  year : ℤ
  month : ℤ
  day : ℤ
  hour : ℤ
  minute : ℤ
  second : ℤ
  nsec : ℤ
  offset : ℤ
  loc : Location

/-- Leap-year rule of `time.isLeap`. -/
def isLeap (year : ℤ) : Bool :=
  year % 4 = 0 && (year % 100 ≠ 0 || year % 400 = 0)

/-- Table `time.daysBefore`: days of a non-leap year before the end of month `m`
(`daysBefore 0 = 0`, `daysBefore 12 = 365`). -/
def daysBefore (m : ℤ) : ℤ :=
  [0, 31, 59, 90, 120, 151, 181, 212, 243, 273, 304, 334, 365].getD m.toNat 0

/-- Number of days of `month` in `year`, as `time.daysIn`. -/
def daysIn (month year : ℤ) : ℤ :=
  if month = 2 ∧ isLeap year = true then 29 else daysBefore month - daysBefore (month - 1)

/-- Days from 1970-01-01 to January 1 of `year` in the proleptic Gregorian calendar. -/
def daysSinceEpoch (year : ℤ) : ℤ :=
  365 * (year - 1) + (year - 1) / 4 - (year - 1) / 100 + (year - 1) / 400 - 719162

/-- Zero-based day of the year of `t`. -/
def Time.yday (t : Time) : ℤ :=
  daysBefore (t.month - 1) + (if isLeap t.year = true ∧ 3 ≤ t.month then 1 else 0) + (t.day - 1)

/-- Seconds since the Unix epoch of the instant `t`: the seconds its civil fields count
from 1970-01-01 00:00:00, less its offset from UTC. -/
def Time.unixSec (t : Time) : ℤ :=
  (daysSinceEpoch t.year + t.yday) * 86400 + t.hour * 3600 + t.minute * 60 + t.second -
    t.offset

/-- Function `time.Date` on arguments that are in range, which it does not normalise: the
time in `loc` with these civil fields, at the offset `loc` has then. -/
def Date (year month day hour min sec nsec : ℤ) (loc : Location) : Time :=
  ⟨year, month, day, hour, min, sec, nsec, loc.offsetAt year month day hour min sec, loc⟩

/-- The values a `Time` returned by `time.Now()` can have: civil fields in range, zone
offsets of less than a day, and an instant that belongs to the local year it shows, so not
later than the last second of that year in its location (clocks are not set back across
New Year). -/
def Time.Valid (t : Time) : Prop :=
  1 ≤ t.month ∧ t.month ≤ 12 ∧ 1 ≤ t.day ∧ t.day ≤ daysIn t.month t.year ∧
  0 ≤ t.hour ∧ t.hour < 24 ∧ 0 ≤ t.minute ∧ t.minute < 60 ∧
  0 ≤ t.second ∧ t.second < 60 ∧ 0 ≤ t.nsec ∧ t.nsec < 1000000000 ∧
  -86400 ≤ t.offset ∧ t.offset ≤ 86400 ∧
  -86400 ≤ t.loc.offsetAt t.year 12 31 23 59 59 ∧ t.loc.offsetAt t.year 12 31 23 59 59 ≤ 86400 ∧
  t.unixSec ≤ (Date t.year 12 31 23 59 59 0 t.loc).unixSec

instance (t : Time) : Decidable t.Valid := by
  unfold Time.Valid; infer_instance

/-- Method `Time.Sub`: the duration `t - u`, saturating at the ends of the int64 range. -/
def Time.Sub (t u : Time) : ℤ :=
  let d := (t.unixSec - u.unixSec) * Second + (t.nsec - u.nsec)
  if maxDuration < d then maxDuration else if d < minDuration then minDuration else d

/-- Method `Time.Before`: the instant `t` is earlier than the instant `u`. -/
def Time.Before (t u : Time) : Prop :=
  t.unixSec < u.unixSec ∨ (t.unixSec = u.unixSec ∧ t.nsec < u.nsec)

instance (t u : Time) : Decidable (t.Before u) := by
  unfold Time.Before; infer_instance

/-! ## main.go -/

/-- The four results of `calculateTimeRemaining`, named after its local variables. -/
structure Remaining where
  monthLeft : ℤ
  weekLeft : ℤ
  dayLeft : ℤ
  hourLeft : ℤ
deriving DecidableEq

/-- The `endOfYear` of `calculateTimeRemaining`:
`time.Date(now.Year(), 12, 31, 23, 59, 59, 0, now.Location())`. -/
def endOfYear (now : Time) : Time :=
  Date now.year 12 31 23 59 59 0 now.loc

/-- Function `calculateTimeRemaining`, with the value of `time.Now()` as its argument. -/
def calculateTimeRemaining (now : Time) : Remaining :=
  let duration := (endOfYear now).Sub now
  let totalHours := goInt (Duration.Hours duration)
  let totalDays := goInt (fl64 (Duration.Hours duration / 24))
  let monthLeft := 12 - now.month
  let weekLeft := Int.tdiv totalDays 7
  let dayLeft := totalDays
  let hourLeft := totalHours
  ⟨monthLeft, weekLeft, dayLeft, hourLeft⟩

/-- The seconds from the civil fields of `now` to Dec 31 23:59:59 of its year, nanoseconds
and zone offsets aside. -/
def secondsLeft (now : Time) : ℤ :=
  (364 + (if isLeap now.year = true then 1 else 0) - now.yday) * 86400 +
    (86399 - (now.hour * 3600 + now.minute * 60 + now.second))

/-- A `CountdownApp` and the tickers of the runtime. `tickers` lists every ticker made by
`time.NewTicker` so far, `true` while it has not been stopped; the goroutine launched by the
same `startTicker` call ranges over that ticker's channel. `ticker` is the field
`app.ticker`, `none` for nil. The labels hold the integers whose decimal text is shown, and
`updates` counts the calls of `updateCountdown`. -/
structure CountdownApp where
  monthLabel : ℤ
  weekLabel : ℤ
  dayLabel : ℤ
  hourLabel : ℤ
  ticker : Option ℕ
  tickers : List Bool
  updates : ℕ
deriving DecidableEq

/-- The `&CountdownApp{}` built by `main`, labels created with text "0". -/
def CountdownApp.init : CountdownApp := ⟨0, 0, 0, 0, none, [], 0⟩

/-- Method `updateCountdown`, reading the clock as `now`. -/
def updateCountdown (app : CountdownApp) (now : Time) : CountdownApp :=
  let r := calculateTimeRemaining now
  { app with
    monthLabel := r.monthLeft, weekLabel := r.weekLeft,
    dayLabel := r.dayLeft, hourLabel := r.hourLeft,
    updates := app.updates + 1 }

/-- Method `startTicker`: a new ticker is made and stored in `app.ticker`, and a goroutine
is launched that calls `updateCountdown` for each of its ticks. -/
def startTicker (app : CountdownApp) : CountdownApp :=
  { app with ticker := some app.tickers.length, tickers := app.tickers ++ [true] }

/-- Method `(*Ticker).Stop`: turns the ticker off; on a nil pointer it panics (`none`). -/
def tickerStop (tickers : List Bool) (t : Option ℕ) : Option (List Bool) :=
  match t with
  | none => none
  | some i => some (tickers.set i false)

/-- Method `stopTicker`: `if app.ticker != nil { app.ticker.Stop() }`. -/
def stopTicker (app : CountdownApp) : Option CountdownApp :=
  if app.ticker.isSome then
    (tickerStop app.tickers app.ticker).map (fun ts => { app with tickers := ts })
  else some app

/-- One iteration of `for range app.ticker.C { app.updateCountdown() }` in the goroutine of
ticker `i`: it happens only while that ticker is running, since a stopped ticker sends no
more ticks. -/
def tick (app : CountdownApp) (i : ℕ) (now : Time) : Option CountdownApp :=
  if app.tickers.getD i false = true then some (updateCountdown app now) else none

/-- The steps of the scheduler. -/
inductive Action where
  | start : Action
  | stop : Action
  | tick : ℕ → Time → Action

/-- One step of the scheduler; `none` when the step is not enabled or would panic. -/
def step (app : CountdownApp) : Action → Option CountdownApp
  | Action.start => some (startTicker app)
  | Action.stop => stopTicker app
  | Action.tick i now => tick app i now

/-- Runs a sequence of steps in order. -/
def run (app : CountdownApp) : List Action → Option CountdownApp
  | [] => some app
  | a :: rest => (step app a).bind (fun app1 => run app1 rest)

/-- Whether an action is a `start`. -/
def Action.isStart : Action → Bool
  | Action.start => true
  | _ => false

/-- Some ticker made so far has not been stopped. -/
def anyRunning (app : CountdownApp) : Bool := app.tickers.any (fun b => b)

/-- No ticker is running: no `tick` step is enabled. -/
def Quiet (app : CountdownApp) : Prop := ∀ i, app.tickers.getD i false = false

/-- Only the ticker held in `app.ticker` can be running. -/
def OnlyCurrentRuns (app : CountdownApp) : Prop :=
  ∀ i, app.tickers.getD i false = true → app.ticker = some i

/-- A sequence of steps from `app` in which no `start` is taken while a ticker is still
running: the caller stops the ticker before starting again. -/
def disciplined (app : CountdownApp) : List Action → Bool
  | [] => true
  | a :: rest =>
    (!(a.isStart && anyRunning app)) &&
      (match step app a with
        | some app1 => disciplined app1 rest
        | none => true)

/-! ## Rounding to the nearest integer -/

theorem roundHalfEven_intCast (n : ℤ) : roundHalfEven (n : ℚ) = n := by
  unfold roundHalfEven
  simp

theorem roundHalfEven_bounds (y : ℚ) :
    ⌊y⌋ ≤ roundHalfEven y ∧ roundHalfEven y ≤ ⌊y⌋ + 1 := by
  unfold roundHalfEven
  split_ifs <;> omega

theorem roundHalfEven_err (y : ℚ) : |(roundHalfEven y : ℚ) - y| ≤ 1 / 2 := by
  have h1 := Int.floor_le y
  have h2 := Int.lt_floor_add_one y
  unfold roundHalfEven
  rw [abs_le]
  split_ifs with a b c <;> push_cast <;> constructor <;> linarith

theorem roundHalfEven_mono {y z : ℚ} (h : y ≤ z) : roundHalfEven y ≤ roundHalfEven z := by
  rcases (Int.floor_mono h).lt_or_eq with hlt | heq
  · have hy := (roundHalfEven_bounds y).2
    have hz := (roundHalfEven_bounds z).1
    omega
  · unfold roundHalfEven
    rw [← heq]
    split_ifs <;> first | omega | (exfalso; linarith)

/-! ## Binades and the binary64 grid -/

theorem ulp_pos (x : ℚ) : 0 < ulp x := by
  unfold ulp
  positivity

theorem binade_ge (x : ℚ) : -1022 ≤ binade x := by
  unfold binade
  split_ifs
  · exact le_refl _
  · exact le_max_right _ _

theorem binade_le {x : ℚ} {e : ℤ} (h : |x| < (2 : ℚ) ^ (e + 1)) (he : -1022 ≤ e) :
    binade x ≤ e := by
  unfold binade
  split_ifs with h0
  · exact he
  · have hlog : Int.log 2 |x| < e + 1 :=
      (Int.lt_zpow_iff_log_lt (by norm_num) (abs_pos.mpr h0)).mp (by exact_mod_cast h)
    exact max_le (by omega) he

theorem le_binade {x : ℚ} {e : ℤ} (h : (2 : ℚ) ^ e ≤ |x|) : e ≤ binade x := by
  have hpos : (0 : ℚ) < (2 : ℚ) ^ e := by positivity
  have h0 : x ≠ 0 := by
    intro hx
    rw [hx, abs_zero] at h
    linarith
  unfold binade
  rw [if_neg h0]
  exact le_max_of_le_left
    ((Int.zpow_le_iff_le_log (by norm_num) (abs_pos.mpr h0)).mp (by exact_mod_cast h))

theorem zpow_binade_le {x : ℚ} (h : -1022 < binade x) : (2 : ℚ) ^ binade x ≤ |x| := by
  unfold binade at h ⊢
  split_ifs at h ⊢ with h0
  · omega
  · have hmax : max (Int.log 2 |x|) (-1022) = Int.log 2 |x| := by
      rcases max_cases (Int.log 2 |x|) (-1022) with ⟨h1, _⟩ | ⟨h1, _⟩
      · exact h1
      · omega
    rw [hmax]
    have := Int.zpow_log_le_self (b := 2) (r := |x|) (by norm_num) (abs_pos.mpr h0)
    exact_mod_cast this

theorem lt_zpow_binade (x : ℚ) : |x| < (2 : ℚ) ^ (binade x + 1) := by
  unfold binade
  split_ifs with h0
  · rw [h0, abs_zero]
    positivity
  · have h1 : |x| < (2 : ℚ) ^ (Int.log 2 |x| + 1) := by
      have := Int.lt_zpow_succ_log_self (b := 2) (by norm_num) |x|
      exact_mod_cast this
    have h2 : (2 : ℚ) ^ (Int.log 2 |x| + 1) ≤ (2 : ℚ) ^ (max (Int.log 2 |x|) (-1022) + 1) :=
      zpow_le_zpow_right₀ (by norm_num) (by have := le_max_left (Int.log 2 |x|) (-1022); omega)
    exact lt_of_lt_of_le h1 h2

theorem ulp_le {x : ℚ} {e : ℤ} (h : binade x ≤ e) : ulp x ≤ (2 : ℚ) ^ (e - 52) := by
  unfold ulp
  exact zpow_le_zpow_right₀ (by norm_num) (by omega)

/-- A nonnegative integer power of two is an integer. -/
theorem two_zpow_int {k : ℤ} (hk : 0 ≤ k) : ∃ m : ℤ, (2 : ℚ) ^ k = m := by
  obtain ⟨n, rfl⟩ := Int.eq_ofNat_of_zero_le hk
  exact ⟨2 ^ n, by push_cast; rw [zpow_natCast]⟩

/-- Multiples of `2 ^ k` lie on the grid of `x` when `k` is at least the exponent of `ulp x`. -/
theorem grid_of_zpow (x : ℚ) {k : ℤ} (hk : binade x - 52 ≤ k) (m0 : ℤ) :
    ∃ m : ℤ, (m0 : ℚ) * (2 : ℚ) ^ k = m * ulp x := by
  obtain ⟨m1, hm1⟩ := two_zpow_int (k := k - (binade x - 52)) (by omega)
  refine ⟨m0 * m1, ?_⟩
  have hsplit : (2 : ℚ) ^ k = (2 : ℚ) ^ (k - (binade x - 52)) * (2 : ℚ) ^ (binade x - 52) := by
    rw [← zpow_add₀ (by norm_num : (2 : ℚ) ≠ 0)]
    congr 1
    ring
  unfold ulp
  rw [hsplit, hm1]
  push_cast
  ring

theorem grid_of_int (x : ℚ) (hb : binade x ≤ 52) (n : ℤ) : ∃ m : ℤ, (n : ℚ) = m * ulp x := by
  obtain ⟨m, hm⟩ := grid_of_zpow x (k := 0) (by omega) n
  exact ⟨m, by rw [← hm]; simp⟩

/-! ## Rounding to binary64 -/

theorem fl64_grid (x : ℚ) : ∃ m : ℤ, fl64 x = m * ulp x := ⟨_, rfl⟩

theorem fl64_le_of_grid {x : ℚ} (m : ℤ) (h : x ≤ m * ulp x) : fl64 x ≤ m * ulp x := by
  have hu := ulp_pos x
  have h1 : x / ulp x ≤ m := by
    rw [div_le_iff₀ hu]
    exact h
  have h2 := roundHalfEven_mono h1
  rw [roundHalfEven_intCast] at h2
  unfold fl64
  exact mul_le_mul_of_nonneg_right (by exact_mod_cast h2) hu.le

theorem le_fl64_of_grid {x : ℚ} (m : ℤ) (h : m * ulp x ≤ x) : m * ulp x ≤ fl64 x := by
  have hu := ulp_pos x
  have h1 : (m : ℚ) ≤ x / ulp x := by
    rw [le_div_iff₀ hu]
    exact h
  have h2 := roundHalfEven_mono h1
  rw [roundHalfEven_intCast] at h2
  unfold fl64
  exact mul_le_mul_of_nonneg_right (by exact_mod_cast h2) hu.le

theorem fl64_le_int {x : ℚ} (hb : binade x ≤ 52) (n : ℤ) (h : x ≤ n) : fl64 x ≤ n := by
  obtain ⟨m, hm⟩ := grid_of_int x hb n
  rw [hm] at h ⊢
  exact fl64_le_of_grid m h

theorem int_le_fl64 {x : ℚ} (hb : binade x ≤ 52) (n : ℤ) (h : (n : ℚ) ≤ x) : (n : ℚ) ≤ fl64 x := by
  obtain ⟨m, hm⟩ := grid_of_int x hb n
  rw [hm] at h ⊢
  exact le_fl64_of_grid m h

theorem fl64_err (x : ℚ) : |fl64 x - x| ≤ ulp x / 2 := by
  have hu := ulp_pos x
  have h := roundHalfEven_err (x / ulp x)
  have hx : x / ulp x * ulp x = x := by field_simp
  have : fl64 x - x = ((roundHalfEven (x / ulp x) : ℚ) - x / ulp x) * ulp x := by
    unfold fl64
    rw [sub_mul, hx]
  rw [this, abs_mul, abs_of_pos hu]
  calc |(roundHalfEven (x / ulp x) : ℚ) - x / ulp x| * ulp x ≤ 1 / 2 * ulp x :=
        mul_le_mul_of_nonneg_right h hu.le
    _ = ulp x / 2 := by ring

theorem fl64_intCast (n : ℤ) (h : |(n : ℚ)| < 2 ^ 53) : fl64 (n : ℚ) = n := by
  have hb : binade (n : ℚ) ≤ 52 := binade_le (by norm_num; exact h) (by norm_num)
  exact le_antisymm (fl64_le_int hb n le_rfl) (int_le_fl64 hb n le_rfl)

theorem fl64_mono_nonneg {x y : ℚ} (hx : 0 ≤ x) (hxy : x ≤ y) : fl64 x ≤ fl64 y := by
  have hy : 0 ≤ y := le_trans hx hxy
  rcases lt_trichotomy (binade x) (binade y) with hlt | heq | hgt
  · have hby : -1022 < binade y := lt_of_le_of_lt (binade_ge x) hlt
    have h1 : (2 : ℚ) ^ binade y ≤ y := by
      have := zpow_binade_le hby
      rwa [abs_of_nonneg hy] at this
    have h2 : x ≤ (2 : ℚ) ^ binade y := by
      have h3 := lt_zpow_binade x
      rw [abs_of_nonneg hx] at h3
      have h4 : (2 : ℚ) ^ (binade x + 1) ≤ (2 : ℚ) ^ binade y :=
        zpow_le_zpow_right₀ (by norm_num) (by omega)
      linarith
    obtain ⟨mx, hmx⟩ := grid_of_zpow x (k := binade y) (by omega) 1
    obtain ⟨my, hmy⟩ := grid_of_zpow y (k := binade y) (by omega) 1
    rw [Int.cast_one, one_mul] at hmx hmy
    have h5 : fl64 x ≤ (2 : ℚ) ^ binade y := by
      rw [hmx] at h2 ⊢
      exact fl64_le_of_grid mx h2
    have h6 : (2 : ℚ) ^ binade y ≤ fl64 y := by
      rw [hmy] at h1
      rw [hmy]
      exact le_fl64_of_grid my h1
    exact le_trans h5 h6
  · have hu : ulp x = ulp y := by unfold ulp; rw [heq]
    unfold fl64
    rw [hu]
    have hpos := ulp_pos y
    have h1 : x / ulp y ≤ y / ulp y := div_le_div_of_nonneg_right hxy hpos.le
    exact mul_le_mul_of_nonneg_right (by exact_mod_cast roundHalfEven_mono h1) hpos.le
  · exfalso
    have hbx : -1022 < binade x := lt_of_le_of_lt (binade_ge y) hgt
    have h1 := zpow_binade_le hbx
    rw [abs_of_nonneg hx] at h1
    have h2 : (2 : ℚ) ^ binade x ≤ |y| := by
      rw [abs_of_nonneg hy]
      exact le_trans h1 hxy
    have := le_binade h2
    omega

theorem fl64_int_bracket {x : ℚ} (lo hi : ℤ) (hlo : (lo : ℚ) ≤ x) (hhi : x ≤ hi)
    (hb : |x| < 2 ^ 53) : (lo : ℚ) ≤ fl64 x ∧ fl64 x ≤ hi := by
  have hb52 : binade x ≤ 52 := binade_le (by norm_num; exact hb) (by norm_num)
  exact ⟨int_le_fl64 hb52 lo hlo, fl64_le_int hb52 hi hhi⟩

theorem fl64_zero : fl64 0 = 0 := by
  have := fl64_intCast 0 (by norm_num)
  simpa using this

/-- Rounding error of a value below `2 ^ (e + 1)` in magnitude. -/
theorem fl64_err_of_lt {x : ℚ} {e : ℤ} (h : |x| < (2 : ℚ) ^ (e + 1)) (he : -1022 ≤ e) :
    x - (2 : ℚ) ^ (e - 52) / 2 ≤ fl64 x ∧ fl64 x ≤ x + (2 : ℚ) ^ (e - 52) / 2 := by
  have h1 := ulp_le (binade_le h he)
  have h2 := fl64_err x
  rw [abs_le] at h2
  constructor <;> linarith [h2.1, h2.2]

/-- Dividing a binary64 number below `24 * j` by 24 never rounds up to `j`. -/
theorem fl64_div24_lt_aux (x : ℚ) (j a : ℤ) (ha0 : 0 ≤ a) (ha : a ≤ 48)
    (hj1 : (2 : ℚ) ^ a ≤ j) (hj2 : (j : ℚ) < (2 : ℚ) ^ (a + 1))
    (h0 : 0 ≤ fl64 x) (hlt : fl64 x < 24 * j) : fl64 (fl64 x / 24) < j := by
  by_contra hge
  push_neg at hge
  have hz0 : 0 ≤ fl64 x / 24 := by positivity
  have hzj : fl64 x / 24 < j := by
    rw [div_lt_iff₀ (by norm_num)]
    linarith
  have herr := (fl64_err_of_lt (x := fl64 x / 24) (e := a)
    (by rw [abs_of_nonneg hz0]; linarith) (by omega)).2
  have hPpos : (0 : ℚ) < (2 : ℚ) ^ (a - 52) := by positivity
  have hPa : (2 : ℚ) ^ a = (2 : ℚ) ^ (a - 52) * 4503599627370496 := by
    rw [show a = (a - 52) + 52 by ring, zpow_add₀ (by norm_num)]
    norm_num
  have hHge : 24 * (j : ℚ) - 12 * (2 : ℚ) ^ (a - 52) ≤ fl64 x := by linarith
  have hbx : a + 4 ≤ binade x := by
    by_contra hcon
    push_neg at hcon
    have h1 := lt_zpow_binade x
    have h2 : (2 : ℚ) ^ (binade x + 1) ≤ (2 : ℚ) ^ (a + 4) :=
      zpow_le_zpow_right₀ (by norm_num) (by omega)
    obtain ⟨mg, hmg⟩ := grid_of_zpow x (k := a + 4) (by omega) 1
    rw [Int.cast_one, one_mul] at hmg
    have hxle : x ≤ (2 : ℚ) ^ (a + 4) := le_trans (le_abs_self x) (by linarith)
    have h3 : fl64 x ≤ (2 : ℚ) ^ (a + 4) := by
      rw [hmg] at hxle ⊢
      exact fl64_le_of_grid mg hxle
    have h4 : (2 : ℚ) ^ (a + 4) = 16 * (2 : ℚ) ^ a := by
      rw [zpow_add₀ (by norm_num)]
      norm_num
      ring
    linarith
  obtain ⟨m, hm⟩ := fl64_grid x
  obtain ⟨m1, hm1⟩ := two_zpow_int (k := binade x - 52 - (a - 48)) (by omega)
  obtain ⟨m2, hm2⟩ := two_zpow_int (k := 48 - a) (by omega)
  have hG : (2 : ℚ) ^ (a - 48) = 16 * (2 : ℚ) ^ (a - 52) := by
    rw [show a - 48 = (a - 52) + 4 by ring, zpow_add₀ (by norm_num)]
    norm_num
    ring
  have hulp : ulp x = m1 * (2 : ℚ) ^ (a - 48) := by
    unfold ulp
    rw [← hm1, ← zpow_add₀ (by norm_num)]
    congr 1
    ring
  have hone : (m2 : ℚ) * (2 : ℚ) ^ (a - 48) = 1 := by
    rw [← hm2, ← zpow_add₀ (by norm_num), show 48 - a + (a - 48) = 0 by ring, zpow_zero]
  have hmH : fl64 x = m * m1 * (2 : ℚ) ^ (a - 48) := by
    rw [hm, hulp]
    ring
  have hN : 24 * (j : ℚ) - fl64 x = ((24 * j * m2 - m * m1 : ℤ) : ℚ) * (2 : ℚ) ^ (a - 48) := by
    push_cast
    linear_combination (-(24 : ℚ) * j) * hone - hmH
  have hGpos : (0 : ℚ) < (2 : ℚ) ^ (a - 48) := by positivity
  have hNpos : (0 : ℚ) < ((24 * j * m2 - m * m1 : ℤ) : ℚ) := by
    have h5 : 0 < ((24 * j * m2 - m * m1 : ℤ) : ℚ) * (2 : ℚ) ^ (a - 48) := by
      rw [← hN]
      linarith
    exact (mul_pos_iff_of_pos_right hGpos).mp h5
  have hN1 : (1 : ℚ) ≤ ((24 * j * m2 - m * m1 : ℤ) : ℚ) := by
    have h6 : 0 < 24 * j * m2 - m * m1 := by exact_mod_cast hNpos
    exact_mod_cast h6
  have h7 : (2 : ℚ) ^ (a - 48) ≤ 24 * (j : ℚ) - fl64 x := by
    rw [hN]
    exact le_mul_of_one_le_left hGpos.le hN1
  linarith

theorem fl64_div24_lt (x : ℚ) (j : ℤ) (hj : 1 ≤ j) (hj2 : j < 2 ^ 48)
    (h0 : 0 ≤ fl64 x) (hlt : fl64 x < 24 * j) : fl64 (fl64 x / 24) < j := by
  obtain ⟨n, rfl⟩ := Int.eq_ofNat_of_zero_le (by omega : 0 ≤ j)
  have hn0 : n ≠ 0 := by omega
  have hn2 : n < 2 ^ 48 := by exact_mod_cast hj2
  have h1 := Nat.pow_log_le_self 2 hn0
  have h2 := Nat.lt_pow_succ_log_self (by norm_num : 1 < 2) n
  have h3 := Nat.log_lt_of_lt_pow hn0 hn2
  refine fl64_div24_lt_aux x (n : ℤ) (Nat.log 2 n : ℤ) (by omega) (by omega) ?_ ?_ h0 hlt
  · rw [zpow_natCast]
    exact_mod_cast h1
  · rw [show ((Nat.log 2 n : ℤ) + 1) = ((Nat.log 2 n + 1 : ℕ) : ℤ) by push_cast; ring, zpow_natCast]
    exact_mod_cast h2

/-! ## Conversion to integer -/

theorem goInt_of_nonneg {x : ℚ} (h : 0 ≤ x) : goInt x = ⌊x⌋ := by
  unfold goInt
  rw [if_pos h]

theorem goInt_eq_zero {x : ℚ} (h1 : -1 < x) (h2 : x < 1) : goInt x = 0 := by
  unfold goInt
  split_ifs with h
  · rw [Int.floor_eq_iff]
    constructor <;> push_cast <;> linarith
  · rw [Int.ceil_eq_iff]
    push_neg at h
    constructor <;> push_cast <;> linarith

theorem goInt_mono_nonneg {x y : ℚ} (hx : 0 ≤ x) (hxy : x ≤ y) : goInt x ≤ goInt y := by
  rw [goInt_of_nonneg hx, goInt_of_nonneg (le_trans hx hxy)]
  exact Int.floor_mono hxy

/-! ## Duration.Hours -/

theorem Hours_of_nonneg {d : ℤ} (h0 : 0 ≤ d) (h1 : d ≤ maxDuration) :
    Duration.Hours d =
      fl64 (((d / Hour : ℤ) : ℚ) + fl64 (((d % Hour : ℤ) : ℚ) / 3600000000000)) := by
  have hH : (0 : ℤ) ≤ Hour := by unfold Hour; norm_num
  have hq : 0 ≤ d / Hour ∧ d / Hour ≤ 2562047 := by
    unfold maxDuration at h1
    unfold Hour
    omega
  have hr : 0 ≤ d % Hour ∧ d % Hour < 3600000000000 := by
    unfold Hour
    omega
  have e1 : fl64 ((d / Hour : ℤ) : ℚ) = ((d / Hour : ℤ) : ℚ) := by
    apply fl64_intCast
    rw [abs_of_nonneg (by exact_mod_cast hq.1)]
    have : ((d / Hour : ℤ) : ℚ) ≤ 2562047 := by exact_mod_cast hq.2
    linarith
  have e2 : fl64 ((d % Hour : ℤ) : ℚ) = ((d % Hour : ℤ) : ℚ) := by
    apply fl64_intCast
    rw [abs_of_nonneg (by exact_mod_cast hr.1)]
    have : ((d % Hour : ℤ) : ℚ) < 3600000000000 := by exact_mod_cast hr.2
    linarith
  unfold Duration.Hours
  simp only [Int.tdiv_eq_ediv h0 hH, Int.tmod_eq_emod h0 hH, e1, e2]

/-- The rounded quotient `float64(nsec)/(60*60*1e9)` for `0 ≤ nsec < Hour`. -/
theorem frac_bounds {n : ℤ} (hn0 : 0 ≤ n) (hn1 : n < 3600000000000) :
    0 ≤ fl64 ((n : ℚ) / 3600000000000) ∧ fl64 ((n : ℚ) / 3600000000000) ≤ 1 ∧
    (n : ℚ) / 3600000000000 - 1 / 18014398509481984 ≤ fl64 ((n : ℚ) / 3600000000000) ∧
    fl64 ((n : ℚ) / 3600000000000) ≤ (n : ℚ) / 3600000000000 + 1 / 18014398509481984 := by
  have hn0' : (0 : ℚ) ≤ n := by exact_mod_cast hn0
  have hn1' : (n : ℚ) < 3600000000000 := by exact_mod_cast hn1
  have hx0 : (0 : ℚ) ≤ (n : ℚ) / 3600000000000 := by positivity
  have hx1 : (n : ℚ) / 3600000000000 < 1 := by
    rw [div_lt_iff₀ (by norm_num)]
    linarith
  have habs : |(n : ℚ) / 3600000000000| < 1 := by rwa [abs_of_nonneg hx0]
  have hbr := fl64_int_bracket (x := (n : ℚ) / 3600000000000) 0 1
    (by simpa using hx0) (by simpa using hx1.le) (by linarith)
  have herr := fl64_err_of_lt (x := (n : ℚ) / 3600000000000) (e := -1)
    (by norm_num; exact habs) (by norm_num)
  norm_num at herr
  refine ⟨by simpa using hbr.1, by simpa using hbr.2, ?_, ?_⟩ <;> linarith [herr.1, herr.2]

theorem Hours_bounds {d : ℤ} (h0 : 0 ≤ d) (h1 : d ≤ maxDuration) :
    ((d / Hour : ℤ) : ℚ) ≤ Duration.Hours d ∧ Duration.Hours d ≤ ((d / Hour : ℤ) : ℚ) + 1 := by
  have hq : 0 ≤ d / Hour ∧ d / Hour ≤ 2562047 := by
    unfold maxDuration at h1
    unfold Hour
    omega
  have hr : 0 ≤ d % Hour ∧ d % Hour < 3600000000000 := by
    unfold Hour
    omega
  have hq0 : (0 : ℚ) ≤ ((d / Hour : ℤ) : ℚ) := by exact_mod_cast hq.1
  have hq1 : ((d / Hour : ℤ) : ℚ) ≤ 2562047 := by exact_mod_cast hq.2
  obtain ⟨f0, f1, _, _⟩ := frac_bounds hr.1 hr.2
  rw [Hours_of_nonneg h0 h1]
  have hbr := fl64_int_bracket
    (x := ((d / Hour : ℤ) : ℚ) + fl64 (((d % Hour : ℤ) : ℚ) / 3600000000000))
    (d / Hour) (d / Hour + 1) (by linarith) (by push_cast; linarith)
    (by rw [abs_of_nonneg (by linarith)]; linarith)
  exact ⟨hbr.1, by have := hbr.2; push_cast at this; exact this⟩

theorem Hours_nonneg {d : ℤ} (h0 : 0 ≤ d) (h1 : d ≤ maxDuration) : 0 ≤ Duration.Hours d := by
  have hq : 0 ≤ d / Hour := by
    unfold Hour
    omega
  have hq0 : (0 : ℚ) ≤ ((d / Hour : ℤ) : ℚ) := by exact_mod_cast hq
  linarith [(Hours_bounds h0 h1).1]

/-- Below 16384 hours, a duration that ends at least 4 ns before a whole hour is not rounded
up to that hour. -/
theorem Hours_lt {d : ℤ} (h0 : 0 ≤ d) (h1 : d < 16384 * Hour) (hgap : d % Hour + 4 ≤ Hour) :
    Duration.Hours d < ((d / Hour : ℤ) : ℚ) + 1 := by
  have hmax : d ≤ maxDuration := by
    unfold maxDuration
    unfold Hour at h1
    omega
  have hq : 0 ≤ d / Hour ∧ d / Hour ≤ 16383 := by
    unfold Hour at h1 ⊢
    omega
  have hr : 0 ≤ d % Hour ∧ d % Hour ≤ 3599999999996 := by
    unfold Hour at hgap ⊢
    omega
  have hq0 : (0 : ℚ) ≤ ((d / Hour : ℤ) : ℚ) := by exact_mod_cast hq.1
  have hq1 : ((d / Hour : ℤ) : ℚ) ≤ 16383 := by exact_mod_cast hq.2
  have hr1 : ((d % Hour : ℤ) : ℚ) ≤ 3599999999996 := by exact_mod_cast hr.2
  obtain ⟨f0, _, _, f3⟩ := frac_bounds hr.1 (by omega)
  have hfr : ((d % Hour : ℤ) : ℚ) / 3600000000000 ≤ 3599999999996 / 3600000000000 :=
    div_le_div_of_nonneg_right hr1 (by norm_num)
  rw [Hours_of_nonneg h0 hmax]
  have herr := fl64_err_of_lt
    (x := ((d / Hour : ℤ) : ℚ) + fl64 (((d % Hour : ℤ) : ℚ) / 3600000000000)) (e := 13)
    (by rw [abs_of_nonneg (by linarith)]; norm_num; linarith) (by norm_num)
  norm_num at herr
  norm_num at hfr
  linarith [herr.2]

theorem Hours_mono {d1 d2 : ℤ} (h0 : 0 ≤ d1) (h12 : d1 ≤ d2) (h2 : d2 ≤ maxDuration) :
    Duration.Hours d1 ≤ Duration.Hours d2 := by
  have h1 : d1 ≤ maxDuration := le_trans h12 h2
  have h0' : 0 ≤ d2 := le_trans h0 h12
  have hq : 0 ≤ d1 / Hour ∧ d1 / Hour ≤ d2 / Hour := by
    unfold Hour
    omega
  rcases hq.2.lt_or_eq with hlt | heq
  · have hc : ((d1 / Hour : ℤ) : ℚ) + 1 ≤ ((d2 / Hour : ℤ) : ℚ) := by exact_mod_cast hlt
    linarith [(Hours_bounds h0 h1).2, (Hours_bounds h0' h2).1]
  · have hr : 0 ≤ d1 % Hour ∧ d1 % Hour ≤ d2 % Hour ∧ d2 % Hour < 3600000000000 := by
      unfold Hour at heq ⊢
      omega
    have hq0 : (0 : ℚ) ≤ ((d1 / Hour : ℤ) : ℚ) := by exact_mod_cast hq.1
    have hr' : ((d1 % Hour : ℤ) : ℚ) ≤ ((d2 % Hour : ℤ) : ℚ) := by exact_mod_cast hr.2.1
    have hr0 : (0 : ℚ) ≤ ((d1 % Hour : ℤ) : ℚ) := by exact_mod_cast hr.1
    obtain ⟨f0, _, _, _⟩ := frac_bounds hr.1 (by omega)
    rw [Hours_of_nonneg h0 h1, Hours_of_nonneg h0' h2, ← heq]
    apply fl64_mono_nonneg (by linarith)
    have := fl64_mono_nonneg (x := ((d1 % Hour : ℤ) : ℚ) / 3600000000000)
      (y := ((d2 % Hour : ℤ) : ℚ) / 3600000000000) (by positivity)
      (div_le_div_of_nonneg_right hr' (by norm_num))
    linarith

/-- After the end of the year the duration is a negative fraction of a second. -/
theorem Hours_of_neg {d : ℤ} (h0 : -Second < d) (h1 : d < 0) :
    -1 < Duration.Hours d ∧ Duration.Hours d ≤ 0 := by
  unfold Second at h0
  have hdiv : Int.tdiv d Hour = 0 := by
    have : d = -(-d) := by ring
    rw [this, Int.neg_tdiv, Int.tdiv_eq_ediv (by omega) (by unfold Hour; norm_num)]
    unfold Hour
    omega
  have hmod : Int.tmod d Hour = d := by
    have := Int.tmod_add_tdiv d Hour
    rw [hdiv] at this
    omega
  have hd0 : (d : ℚ) < 0 := by exact_mod_cast h1
  have hd1 : (-1000000000 : ℚ) < d := by exact_mod_cast h0
  have e2 : fl64 (d : ℚ) = d := by
    apply fl64_intCast
    rw [abs_of_neg hd0]
    linarith
  unfold Duration.Hours
  simp only [hdiv, hmod, e2, Int.cast_zero, fl64_zero, zero_add]
  have hx0 : (d : ℚ) / 3600000000000 ≤ 0 := by
    apply div_nonpos_of_nonpos_of_nonneg hd0.le (by norm_num)
  have hx1 : -(1 / 3600) < (d : ℚ) / 3600000000000 := by
    rw [lt_div_iff₀ (by norm_num)]
    linarith
  have hb1 := fl64_int_bracket (x := (d : ℚ) / 3600000000000) (-1) 0
    (by push_cast; linarith) (by simpa using hx0) (by rw [abs_of_nonpos hx0]; linarith)
  have he1 := fl64_err_of_lt (x := (d : ℚ) / 3600000000000) (e := -1)
    (by rw [abs_of_nonpos hx0]; norm_num; linarith) (by norm_num)
  norm_num at he1
  have hq0 : fl64 ((d : ℚ) / 3600000000000) ≤ 0 := by simpa using hb1.2
  have hb2 := fl64_int_bracket (x := fl64 ((d : ℚ) / 3600000000000)) (-1) 0
    (by push_cast; linarith [he1.1]) (by simpa using hq0)
    (by rw [abs_of_nonpos hq0]; linarith [he1.1])
  have he2 := fl64_err_of_lt (x := fl64 ((d : ℚ) / 3600000000000)) (e := -1)
    (by rw [abs_of_nonpos hq0]; norm_num; linarith [he1.1]) (by norm_num)
  norm_num at he2
  exact ⟨by linarith [he2.1, he1.1], by simpa using hb2.2⟩

/-- The quotient `duration.Hours() / 24` truncates to the truncated hours divided by 24. -/
theorem days_eq_hours_div {d : ℤ} (h0 : 0 ≤ d) (h1 : d ≤ maxDuration) :
    0 ≤ fl64 (Duration.Hours d / 24) ∧
    goInt (fl64 (Duration.Hours d / 24)) = goInt (Duration.Hours d) / 24 := by
  have hH0 := Hours_nonneg h0 h1
  have hHb := Hours_bounds h0 h1
  have hq : 0 ≤ d / Hour ∧ d / Hour ≤ 2562047 := by
    unfold maxDuration at h1
    unfold Hour
    omega
  have hq1 : ((d / Hour : ℤ) : ℚ) ≤ 2562047 := by exact_mod_cast hq.2
  have hfl0 : 0 ≤ ⌊Duration.Hours d⌋ := Int.floor_nonneg.mpr hH0
  have hflle : ⌊Duration.Hours d⌋ ≤ 2562048 := by
    have : Duration.Hours d < ((2562048 + 1 : ℤ) : ℚ) := by push_cast; linarith [hHb.2]
    have := Int.floor_lt.mpr this
    omega
  have hfl1 := Int.floor_le (Duration.Hours d)
  have hfl2 := Int.lt_floor_add_one (Duration.Hours d)
  have hk : 0 ≤ ⌊Duration.Hours d⌋ / 24 ∧ ⌊Duration.Hours d⌋ / 24 * 24 ≤ ⌊Duration.Hours d⌋ ∧
      ⌊Duration.Hours d⌋ + 1 ≤ (⌊Duration.Hours d⌋ / 24 + 1) * 24 ∧
      ⌊Duration.Hours d⌋ / 24 ≤ 106752 := by omega
  have hk1 : ((⌊Duration.Hours d⌋ / 24 : ℤ) : ℚ) * 24 ≤ (⌊Duration.Hours d⌋ : ℚ) := by
    exact_mod_cast hk.2.1
  have hk2 : (⌊Duration.Hours d⌋ : ℚ) + 1 ≤ (((⌊Duration.Hours d⌋ / 24 : ℤ) : ℚ) + 1) * 24 := by
    exact_mod_cast hk.2.2.1
  have hk0 : (0 : ℚ) ≤ ((⌊Duration.Hours d⌋ / 24 : ℤ) : ℚ) := by exact_mod_cast hk.1
  have hlow : ((⌊Duration.Hours d⌋ / 24 : ℤ) : ℚ) ≤ fl64 (Duration.Hours d / 24) := by
    refine (fl64_int_bracket (x := Duration.Hours d / 24) (⌊Duration.Hours d⌋ / 24)
      2562048 ?_ ?_ ?_).1
    · rw [le_div_iff₀ (by norm_num)]
      linarith
    · push_cast
      rw [div_le_iff₀ (by norm_num)]
      linarith [hHb.2]
    · rw [abs_of_nonneg (by positivity), div_lt_iff₀ (by norm_num)]
      linarith [hHb.2]
  have hup : fl64 (Duration.Hours d / 24) < ((⌊Duration.Hours d⌋ / 24 + 1 : ℤ) : ℚ) := by
    have hj1 : 1 ≤ ⌊Duration.Hours d⌋ / 24 + 1 := by omega
    have hj2 : ⌊Duration.Hours d⌋ / 24 + 1 < 2 ^ 48 := by omega
    have hlt : Duration.Hours d < 24 * ((⌊Duration.Hours d⌋ / 24 + 1 : ℤ) : ℚ) := by
      push_cast
      linarith
    exact fl64_div24_lt (fl64 ((Int.tdiv d Hour : ℤ) : ℚ) +
      fl64 (fl64 ((Int.tmod d Hour : ℤ) : ℚ) / 3600000000000))
      (⌊Duration.Hours d⌋ / 24 + 1) hj1 hj2 hH0 hlt
  have hnn : 0 ≤ fl64 (Duration.Hours d / 24) := le_trans hk0 hlow
  refine ⟨hnn, ?_⟩
  rw [goInt_of_nonneg hnn, goInt_of_nonneg hH0, Int.floor_eq_iff]
  exact ⟨hlow, by have := hup; push_cast at this; exact this⟩

/-! ## The duration to the end of the year -/

theorem floor_div_pos (n k : ℤ) (hk : 0 < k) : ⌊(n : ℚ) / (k : ℚ)⌋ = n / k := by
  have hk' : (0 : ℚ) < k := by exact_mod_cast hk
  rw [Int.floor_eq_iff]
  have h1 : n / k * k ≤ n := Int.ediv_mul_le n (ne_of_gt hk)
  have h2 : n < (n / k + 1) * k := Int.lt_ediv_add_one_mul_self n hk
  have h1' : ((n / k : ℤ) : ℚ) * k ≤ n := by exact_mod_cast h1
  have h2' : (n : ℚ) < (((n / k : ℤ) : ℚ) + 1) * k := by exact_mod_cast h2
  constructor
  · rw [le_div_iff₀ hk']
    exact h1'
  · rw [div_lt_iff₀ hk']
    exact h2'

theorem yday_bounds (t : Time) (hv : t.Valid) :
    0 ≤ t.yday ∧ t.yday ≤ 364 + (if isLeap t.year = true then 1 else 0) := by
  obtain ⟨y, mo, dd, hh, mi, ss, ns, off, loc⟩ := t
  obtain ⟨h1, h2, h3, h4, -⟩ := hv
  simp only at h1 h2 h3 h4
  simp only [Time.yday]
  unfold daysIn at h4
  interval_cases mo <;> cases hl : isLeap y <;>
    simp [daysBefore, hl] at h4 ⊢ <;> omega

theorem valid_nsec {t : Time} (hv : t.Valid) : 0 ≤ t.nsec ∧ t.nsec < 1000000000 :=
  ⟨hv.2.2.2.2.2.2.2.2.2.2.1, hv.2.2.2.2.2.2.2.2.2.2.2.1⟩

theorem valid_zone {t : Time} (hv : t.Valid) :
    -86400 ≤ t.offset ∧ t.offset ≤ 86400 ∧
    -86400 ≤ t.loc.offsetAt t.year 12 31 23 59 59 ∧
    t.loc.offsetAt t.year 12 31 23 59 59 ≤ 86400 ∧
    t.unixSec ≤ (endOfYear t).unixSec :=
  hv.2.2.2.2.2.2.2.2.2.2.2.2

theorem secondsLeft_eq (now : Time) :
    (endOfYear now).unixSec - now.unixSec =
      secondsLeft now + (now.offset - now.loc.offsetAt now.year 12 31 23 59 59) := by
  unfold secondsLeft Time.unixSec endOfYear Date
  simp only [Time.yday]
  cases hl : isLeap now.year <;> simp [daysBefore] <;> ring

theorem secondsLeft_bounds (now : Time) (hv : now.Valid) :
    0 ≤ secondsLeft now ∧ secondsLeft now ≤ 31622399 := by
  have hy := yday_bounds now hv
  obtain ⟨-, -, -, -, h5, h6, h7, h8, h9, h10, -⟩ := hv
  unfold secondsLeft
  split_ifs at hy ⊢ <;> omega

/-- The seconds between the instant `now` and the end of its year. -/
theorem instant_bounds (now : Time) (hv : now.Valid) :
    0 ≤ (endOfYear now).unixSec - now.unixSec ∧
    (endOfYear now).unixSec - now.unixSec ≤ 31795199 := by
  have hs := secondsLeft_bounds now hv
  have hz := valid_zone hv
  have he := secondsLeft_eq now
  omega

theorem duration_eq (now : Time) (hv : now.Valid) :
    (endOfYear now).Sub now = ((endOfYear now).unixSec - now.unixSec) * Second - now.nsec := by
  have hs := instant_bounds now hv
  have hn := valid_nsec hv
  have he : (endOfYear now).nsec = 0 := rfl
  unfold Time.Sub
  simp only [he]
  unfold maxDuration minDuration Second
  split_ifs <;> omega

theorem duration_bounds (now : Time) (hv : now.Valid) :
    -Second < (endOfYear now).Sub now ∧ (endOfYear now).Sub now < 8832 * Hour := by
  have hs := instant_bounds now hv
  have hn := valid_nsec hv
  rw [duration_eq now hv]
  unfold Second Hour
  omega

theorem before_endOfYear_iff (now : Time) (hv : now.Valid) :
    now.Before (endOfYear now) ↔ 0 < (endOfYear now).Sub now := by
  have hn := valid_nsec hv
  have he : (endOfYear now).nsec = 0 := rfl
  rw [duration_eq now hv]
  unfold Time.Before
  rw [he]
  unfold Second
  constructor
  · rintro (h | ⟨_, h⟩) <;> omega
  · intro h
    left
    omega

/-! ## calculateTimeRemaining -/

theorem hourLeft_eq (now : Time) :
    (calculateTimeRemaining now).hourLeft = goInt (Duration.Hours ((endOfYear now).Sub now)) := rfl

theorem dayLeft_eq (now : Time) :
    (calculateTimeRemaining now).dayLeft =
      goInt (fl64 (Duration.Hours ((endOfYear now).Sub now) / 24)) := rfl

theorem weekLeft_eq (now : Time) :
    (calculateTimeRemaining now).weekLeft = Int.tdiv (calculateTimeRemaining now).dayLeft 7 := rfl

theorem monthLeft_eq (now : Time) : (calculateTimeRemaining now).monthLeft = 12 - now.month := rfl

/-- After the end of the year both truncations give zero. -/
theorem remaining_after {d : ℤ} (h0 : -Second < d) (h1 : d < 0) :
    goInt (Duration.Hours d) = 0 ∧ goInt (fl64 (Duration.Hours d / 24)) = 0 := by
  obtain ⟨hlo, hhi⟩ := Hours_of_neg h0 h1
  refine ⟨goInt_eq_zero hlo (by linarith), ?_⟩
  have hx0 : Duration.Hours d / 24 ≤ 0 := by
    apply div_nonpos_of_nonpos_of_nonneg hhi (by norm_num)
  have hx1 : -(1 / 24) < Duration.Hours d / 24 := by
    rw [lt_div_iff₀ (by norm_num)]
    linarith
  have hb := fl64_int_bracket (x := Duration.Hours d / 24) (-1) 0
    (by push_cast; linarith) (by simpa using hx0) (by rw [abs_of_nonpos hx0]; linarith)
  have he := fl64_err_of_lt (x := Duration.Hours d / 24) (e := -1)
    (by rw [abs_of_nonpos hx0]; norm_num; linarith) (by norm_num)
  norm_num at he
  have h2 : fl64 (Duration.Hours d / 24) ≤ 0 := by simpa using hb.2
  exact goInt_eq_zero (by linarith [he.1]) (by linarith)

/-- Hours and days of a nonnegative duration that does not end within 4 ns below a whole
hour. -/
theorem remaining_exact {d : ℤ} (h0 : 0 ≤ d) (h1 : d < 8832 * Hour)
    (hgap : d % Hour + 4 ≤ Hour) :
    goInt (Duration.Hours d) = d / Hour ∧
    goInt (fl64 (Duration.Hours d / 24)) = d / (24 * Hour) := by
  have hmax : d ≤ maxDuration := by
    unfold maxDuration
    unfold Hour at h1
    omega
  have hlt := Hours_lt h0 (by unfold Hour at h1 ⊢; omega) hgap
  have hb := Hours_bounds h0 hmax
  have hH0 := Hours_nonneg h0 hmax
  have hh : goInt (Duration.Hours d) = d / Hour := by
    rw [goInt_of_nonneg hH0, Int.floor_eq_iff]
    exact ⟨hb.1, hlt⟩
  refine ⟨hh, ?_⟩
  rw [(days_eq_hours_div h0 hmax).2, hh]
  unfold Hour
  omega

/-- For every duration the calculation can meet: days are hours over 24, and neither is
negative. -/
theorem remaining_days_hours {d : ℤ} (h0 : -Second < d) (h1 : d < 8832 * Hour) :
    goInt (fl64 (Duration.Hours d / 24)) = goInt (Duration.Hours d) / 24 ∧
    0 ≤ goInt (Duration.Hours d) ∧ 0 ≤ goInt (fl64 (Duration.Hours d / 24)) := by
  rcases lt_or_le d 0 with hneg | hpos
  · obtain ⟨e1, e2⟩ := remaining_after h0 hneg
    rw [e1, e2]
    simp
  · have hmax : d ≤ maxDuration := by
      unfold maxDuration
      unfold Hour at h1
      omega
    obtain ⟨hnn, he⟩ := days_eq_hours_div hpos hmax
    have hH0 := Hours_nonneg hpos hmax
    refine ⟨he, ?_, ?_⟩
    · rw [goInt_of_nonneg hH0]
      exact Int.floor_nonneg.mpr hH0
    · rw [goInt_of_nonneg hnn]
      exact Int.floor_nonneg.mpr hnn

/-- C2. For every timestamp strictly before Dec 31 23:59:59 of its own year, the months,
weeks, days and hours returned by `calculateTimeRemaining` are all non-negative. -/
theorem remaining_nonneg (now : Time) (hv : now.Valid) (hb : now.Before (endOfYear now)) :
    0 ≤ (calculateTimeRemaining now).monthLeft ∧ 0 ≤ (calculateTimeRemaining now).weekLeft ∧
    0 ≤ (calculateTimeRemaining now).dayLeft ∧ 0 ≤ (calculateTimeRemaining now).hourLeft := by
  obtain ⟨hlo, hhi⟩ := duration_bounds now hv
  have hpos := (before_endOfYear_iff now hv).mp hb
  obtain ⟨-, hh, hd⟩ := remaining_days_hours hlo hhi
  have hm : now.month ≤ 12 := hv.2.1
  rw [weekLeft_eq, monthLeft_eq, dayLeft_eq, hourLeft_eq]
  refine ⟨by omega, ?_, hd, hh⟩
  rw [Int.tdiv_eq_ediv hd (by norm_num)]
  omega

/-- Witness of `remaining_nonneg` at 2024-03-15 00:00:00. -/
theorem remaining_nonneg_witness :
    (⟨2024, 3, 15, 0, 0, 0, 0, 0, UTC⟩ : Time).Valid ∧
    (⟨2024, 3, 15, 0, 0, 0, 0, 0, UTC⟩ : Time).Before (endOfYear ⟨2024, 3, 15, 0, 0, 0, 0, 0, UTC⟩) ∧
    0 ≤ (calculateTimeRemaining ⟨2024, 3, 15, 0, 0, 0, 0, 0, UTC⟩).monthLeft ∧
    0 ≤ (calculateTimeRemaining ⟨2024, 3, 15, 0, 0, 0, 0, 0, UTC⟩).weekLeft ∧
    0 ≤ (calculateTimeRemaining ⟨2024, 3, 15, 0, 0, 0, 0, 0, UTC⟩).dayLeft ∧
    0 ≤ (calculateTimeRemaining ⟨2024, 3, 15, 0, 0, 0, 0, 0, UTC⟩).hourLeft :=
  ⟨by decide, by decide, remaining_nonneg ⟨2024, 3, 15, 0, 0, 0, 0, 0, UTC⟩ (by decide) (by decide)⟩

/-- C3. Monotonicity: for timestamps `now1` before `now2` in the same calendar year, both
before that year's Dec 31 23:59:59, the hours computed for `now1` are at least the hours
computed for `now2`. Both are readings of the same clock, so in one location. -/
theorem hours_monotone (now1 now2 : Time) (hv1 : now1.Valid) (hv2 : now2.Valid)
    (hloc : now1.loc = now2.loc) (hy : now1.year = now2.year) (hlt : now1.Before now2)
    (hb1 : now1.Before (endOfYear now1)) (hb2 : now2.Before (endOfYear now2)) :
    (calculateTimeRemaining now2).hourLeft ≤ (calculateTimeRemaining now1).hourLeft := by
  have hE : endOfYear now1 = endOfYear now2 := by
    unfold endOfYear
    rw [hy, hloc]
  have hp1 := (before_endOfYear_iff now1 hv1).mp hb1
  have hp2 := (before_endOfYear_iff now2 hv2).mp hb2
  have hhi := (duration_bounds now1 hv1).2
  have hn1 := valid_nsec hv1
  have hn2 := valid_nsec hv2
  have hle : (endOfYear now2).Sub now2 ≤ (endOfYear now1).Sub now1 := by
    rw [duration_eq now1 hv1, duration_eq now2 hv2, hE]
    unfold Second
    unfold Time.Before at hlt
    rcases hlt with h | ⟨h, h'⟩ <;> omega
  have hmax : (endOfYear now1).Sub now1 ≤ maxDuration := by
    unfold maxDuration
    unfold Hour at hhi
    omega
  rw [hourLeft_eq, hourLeft_eq]
  exact goInt_mono_nonneg (Hours_nonneg hp2.le (le_trans hle hmax)) (Hours_mono hp2.le hle hmax)

/-- Witness of `hours_monotone` at 2024-03-15 00:00:00 and 2024-07-01 12:30:00. -/
theorem hours_monotone_witness :
    (⟨2024, 3, 15, 0, 0, 0, 0, 0, UTC⟩ : Time).Valid ∧ (⟨2024, 7, 1, 12, 30, 0, 0, 0, UTC⟩ : Time).Valid ∧
    (⟨2024, 3, 15, 0, 0, 0, 0, 0, UTC⟩ : Time).Before ⟨2024, 7, 1, 12, 30, 0, 0, 0, UTC⟩ ∧
    (⟨2024, 3, 15, 0, 0, 0, 0, 0, UTC⟩ : Time).Before (endOfYear ⟨2024, 3, 15, 0, 0, 0, 0, 0, UTC⟩) ∧
    (⟨2024, 7, 1, 12, 30, 0, 0, 0, UTC⟩ : Time).Before (endOfYear ⟨2024, 7, 1, 12, 30, 0, 0, 0, UTC⟩) ∧
    (calculateTimeRemaining ⟨2024, 7, 1, 12, 30, 0, 0, 0, UTC⟩).hourLeft ≤
      (calculateTimeRemaining ⟨2024, 3, 15, 0, 0, 0, 0, 0, UTC⟩).hourLeft :=
  ⟨by decide, by decide, by decide, by decide, by decide,
    hours_monotone ⟨2024, 3, 15, 0, 0, 0, 0, 0, UTC⟩ ⟨2024, 7, 1, 12, 30, 0, 0, 0, UTC⟩
      (by decide) (by decide) rfl rfl (by decide) (by decide) (by decide)⟩

/-- C4. Boundary: in every year and location, at exactly Dec 31 23:59:59.000 the hours and
the days returned by `calculateTimeRemaining` are both 0. -/
theorem boundary_zero (year : ℤ) (loc : Location) :
    (calculateTimeRemaining (Date year 12 31 23 59 59 0 loc)).hourLeft = 0 ∧
    (calculateTimeRemaining (Date year 12 31 23 59 59 0 loc)).dayLeft = 0 := by
  have hd : (endOfYear (Date year 12 31 23 59 59 0 loc)).Sub (Date year 12 31 23 59 59 0 loc)
      = 0 := by
    have he : endOfYear (Date year 12 31 23 59 59 0 loc) = Date year 12 31 23 59 59 0 loc := rfl
    rw [he]
    unfold Time.Sub
    simp [maxDuration, minDuration]
  have hH : Duration.Hours 0 = 0 := by
    unfold Duration.Hours
    simp [fl64_zero]
  rw [hourLeft_eq, dayLeft_eq, hd, hH]
  simp [fl64_zero, goInt]

/-- C5, as stated, fails. In America/New_York, 2024-03-15 00:00:00 is at UTC-4 and
2024-12-31 23:59:59 at UTC-5: the duration between the two instants is one hour longer than
between the civil times, and the result is 292 days and 7008 hours. -/
theorem example_march_15_counterexample :
    (⟨2024, 3, 15, 0, 0, 0, 0, -14400, newYork2024⟩ : Time).Valid ∧
    newYork2024.offsetAt 2024 3 15 0 0 0 = -14400 ∧
    calculateTimeRemaining ⟨2024, 3, 15, 0, 0, 0, 0, -14400, newYork2024⟩ = ⟨9, 41, 292, 7008⟩ ∧
    calculateTimeRemaining ⟨2024, 3, 15, 0, 0, 0, 0, -14400, newYork2024⟩ ≠ ⟨9, 41, 291, 7007⟩ := by
  have hd : (endOfYear ⟨2024, 3, 15, 0, 0, 0, 0, -14400, newYork2024⟩).Sub
      ⟨2024, 3, 15, 0, 0, 0, 0, -14400, newYork2024⟩ = 25232399000000000 := by decide
  obtain ⟨r1, r2⟩ := remaining_exact (d := 25232399000000000) (by decide) (by decide) (by decide)
  have hh : (calculateTimeRemaining ⟨2024, 3, 15, 0, 0, 0, 0, -14400, newYork2024⟩).hourLeft
      = 7008 := by
    rw [hourLeft_eq, hd, r1]
    decide
  have hdy : (calculateTimeRemaining ⟨2024, 3, 15, 0, 0, 0, 0, -14400, newYork2024⟩).dayLeft
      = 292 := by
    rw [dayLeft_eq, hd, r2]
    decide
  have hw : (calculateTimeRemaining ⟨2024, 3, 15, 0, 0, 0, 0, -14400, newYork2024⟩).weekLeft
      = 41 := by
    rw [weekLeft_eq, hdy]
    decide
  have hm : (calculateTimeRemaining ⟨2024, 3, 15, 0, 0, 0, 0, -14400, newYork2024⟩).monthLeft
      = 9 := by
    rw [monthLeft_eq]
    decide
  have heq : calculateTimeRemaining ⟨2024, 3, 15, 0, 0, 0, 0, -14400, newYork2024⟩ =
      ⟨9, 41, 292, 7008⟩ := by
    rw [← hh, ← hdy, ← hw, ← hm]
  refine ⟨by decide, by decide, heq, ?_⟩
  rw [heq]
  decide

/-- C5, amended. For `now` = 2024-03-15T00:00:00 in a location whose UTC offset at
2024-12-31T23:59:59 is the one in effect at `now`, the end of the year used is
2024-12-31T23:59:59 and the result is 9 months, 41 weeks, 291 days, 7007 hours. -/
theorem example_march_15 (loc : Location) (off : ℤ)
    (hoff : loc.offsetAt 2024 12 31 23 59 59 = off) :
    endOfYear ⟨2024, 3, 15, 0, 0, 0, 0, off, loc⟩ = ⟨2024, 12, 31, 23, 59, 59, 0, off, loc⟩ ∧
    calculateTimeRemaining ⟨2024, 3, 15, 0, 0, 0, 0, off, loc⟩ = ⟨9, 41, 291, 7007⟩ := by
  have he : endOfYear ⟨2024, 3, 15, 0, 0, 0, 0, off, loc⟩ =
      ⟨2024, 12, 31, 23, 59, 59, 0, off, loc⟩ := by
    unfold endOfYear Date
    simp only [hoff]
  have hu : (endOfYear ⟨2024, 3, 15, 0, 0, 0, 0, off, loc⟩).unixSec -
      (⟨2024, 3, 15, 0, 0, 0, 0, off, loc⟩ : Time).unixSec = 25228799 := by
    rw [secondsLeft_eq]
    simp only [hoff, sub_self, add_zero]
    rfl
  have hd : (endOfYear ⟨2024, 3, 15, 0, 0, 0, 0, off, loc⟩).Sub
      ⟨2024, 3, 15, 0, 0, 0, 0, off, loc⟩ = 25228799000000000 := by
    have hn : (endOfYear ⟨2024, 3, 15, 0, 0, 0, 0, off, loc⟩).nsec = 0 := rfl
    unfold Time.Sub
    simp only [hu, hn]
    decide
  obtain ⟨r1, r2⟩ := remaining_exact (d := 25228799000000000) (by decide) (by decide) (by decide)
  have hh : (calculateTimeRemaining ⟨2024, 3, 15, 0, 0, 0, 0, off, loc⟩).hourLeft = 7007 := by
    rw [hourLeft_eq, hd, r1]
    decide
  have hdy : (calculateTimeRemaining ⟨2024, 3, 15, 0, 0, 0, 0, off, loc⟩).dayLeft = 291 := by
    rw [dayLeft_eq, hd, r2]
    decide
  have hw : (calculateTimeRemaining ⟨2024, 3, 15, 0, 0, 0, 0, off, loc⟩).weekLeft = 41 := by
    rw [weekLeft_eq, hdy]
    decide
  have hm : (calculateTimeRemaining ⟨2024, 3, 15, 0, 0, 0, 0, off, loc⟩).monthLeft = 9 := by
    rw [monthLeft_eq]
    show (12 : ℤ) - 3 = 9
    decide
  refine ⟨he, ?_⟩
  rw [← hh, ← hdy, ← hw, ← hm]

/-- Witness for C5, amended: the example in UTC. -/
theorem example_march_15_witness :
    UTC.offsetAt 2024 12 31 23 59 59 = 0 ∧
    calculateTimeRemaining ⟨2024, 3, 15, 0, 0, 0, 0, 0, UTC⟩ = ⟨9, 41, 291, 7007⟩ :=
  ⟨rfl, (example_march_15 UTC 0 rfl).2⟩

/-- C6. For every timestamp, the months returned by `calculateTimeRemaining` are exactly
12 minus the month number of `now`; they are the same for any two timestamps with the same
month, whatever their day, time of day and duration to the end of the year. -/
theorem months_eq (now : Time) :
    (calculateTimeRemaining now).monthLeft = 12 - now.month ∧
    ∀ other : Time, other.month = now.month →
      (calculateTimeRemaining other).monthLeft = (calculateTimeRemaining now).monthLeft := by
  refine ⟨rfl, ?_⟩
  intro other h
  rw [monthLeft_eq, monthLeft_eq, h]

/-- C7. For every timestamp, before or after the end of its year, the weeks returned by
`calculateTimeRemaining` are the days it returns divided by 7 with integer division, which
Go truncates; the days are never negative, so this is also the floor. -/
theorem weeks_eq_days_div (now : Time) (hv : now.Valid) :
    (calculateTimeRemaining now).weekLeft = Int.tdiv (calculateTimeRemaining now).dayLeft 7 ∧
    (calculateTimeRemaining now).weekLeft = (calculateTimeRemaining now).dayLeft / 7 ∧
    (calculateTimeRemaining now).weekLeft = ⌊((calculateTimeRemaining now).dayLeft : ℚ) / 7⌋ := by
  obtain ⟨hlo, hhi⟩ := duration_bounds now hv
  obtain ⟨-, -, hd⟩ := remaining_days_hours hlo hhi
  have h1 : (calculateTimeRemaining now).weekLeft = (calculateTimeRemaining now).dayLeft / 7 := by
    rw [weekLeft_eq, dayLeft_eq, Int.tdiv_eq_ediv hd (by norm_num)]
  refine ⟨rfl, h1, ?_⟩
  rw [h1]
  exact (floor_div_pos _ 7 (by norm_num)).symm

/-- Witness of `weeks_eq_days_div` half a second after the end of 2024. -/
theorem weeks_eq_days_div_witness :
    (⟨2024, 12, 31, 23, 59, 59, 500000000, 0, UTC⟩ : Time).Valid ∧
    (calculateTimeRemaining ⟨2024, 12, 31, 23, 59, 59, 500000000, 0, UTC⟩).weekLeft =
      (calculateTimeRemaining ⟨2024, 12, 31, 23, 59, 59, 500000000, 0, UTC⟩).dayLeft / 7 :=
  ⟨by decide, (weeks_eq_days_div ⟨2024, 12, 31, 23, 59, 59, 500000000, 0, UTC⟩ (by decide)).2.1⟩

theorem getD_set_false (ts : List Bool) (i j : ℕ) :
    (ts.set j false).getD i false = if i = j then false else ts.getD i false := by
  rw [List.getD_eq_getElem?_getD, List.getD_eq_getElem?_getD, List.getElem?_set]
  by_cases hij : i = j
  · subst hij
    simp only [if_true]
    split_ifs <;> rfl
  · rw [if_neg (fun h => hij h.symm), if_neg hij]

theorem getD_append_true (ts : List Bool) (i : ℕ) :
    (ts ++ [true]).getD i false = if i = ts.length then true else ts.getD i false := by
  rw [List.getD_eq_getElem?_getD, List.getD_eq_getElem?_getD, List.getElem?_append]
  by_cases hi : i < ts.length
  · rw [if_pos hi, if_neg (by omega)]
  · rw [if_neg hi]
    by_cases he : i = ts.length
    · rw [if_pos he, he]
      simp
    · rw [if_neg he, List.getElem?_eq_none (by omega : ts.length ≤ i),
        List.getElem?_eq_none (by simp; omega)]

theorem set_false_of_not_running (ts : List Bool) (i : ℕ) (h : ts.getD i false = false) :
    ts.set i false = ts := by
  apply List.ext_getElem?
  intro j
  rw [List.getElem?_set]
  split_ifs with h1 h2
  · subst h1
    rw [List.getD_eq_getElem?_getD, List.getElem?_eq_getElem h2] at h
    rw [List.getElem?_eq_getElem h2]
    simp at h
    simp [h]
  · subst h1
    simp at h2
    simp [List.getElem?_eq_none h2]
  · rfl

theorem stopTicker_none {app : CountdownApp} (h : app.ticker = none) :
    stopTicker app = some app := by
  unfold stopTicker
  simp [h]

theorem stopTicker_some {app : CountdownApp} {i : ℕ} (h : app.ticker = some i) :
    stopTicker app = some { app with tickers := app.tickers.set i false } := by
  unfold stopTicker tickerStop
  simp [h]

theorem tick_some {app app1 : CountdownApp} {i : ℕ} {now : Time}
    (h : tick app i now = some app1) :
    app.tickers.getD i false = true ∧ app1.tickers = app.tickers ∧ app1.ticker = app.ticker := by
  unfold tick at h
  split_ifs at h with hc
  simp only [Option.some.injEq] at h
  subst h
  exact ⟨hc, rfl, rfl⟩

theorem anyRunning_false_iff (app : CountdownApp) : anyRunning app = false ↔ Quiet app := by
  unfold anyRunning Quiet
  rw [List.any_eq_false]
  constructor
  · intro h i
    rw [List.getD_eq_getElem?_getD]
    cases hg : app.tickers[i]? with
    | none => rfl
    | some b =>
      have hm : b ∈ app.tickers := List.mem_iff_getElem?.mpr ⟨i, hg⟩
      have := h b hm
      simpa using this
  · intro h b hb
    obtain ⟨i, hi⟩ := List.mem_iff_getElem?.mp hb
    have := h i
    rw [List.getD_eq_getElem?_getD, hi] at this
    simpa using this

theorem quiet_tick_none {app : CountdownApp} (h : Quiet app) (i : ℕ) (now : Time) :
    tick app i now = none := by
  unfold tick
  rw [if_neg]
  rw [h i]
  decide

theorem onlyCurrentRuns_init : OnlyCurrentRuns CountdownApp.init := by
  intro i h
  simp [CountdownApp.init] at h

/-- Stopping when only the current ticker can run leaves nothing running. -/
theorem quiet_of_stop {app app1 : CountdownApp} (hinv : OnlyCurrentRuns app)
    (h : stopTicker app = some app1) : Quiet app1 := by
  intro i
  cases ht : app.ticker with
  | none =>
    rw [stopTicker_none ht] at h
    simp only [Option.some.injEq] at h
    subst h
    by_contra hc
    have := hinv i (by simpa using hc)
    rw [ht] at this
    exact Option.noConfusion this
  | some j =>
    rw [stopTicker_some ht] at h
    simp only [Option.some.injEq] at h
    subst h
    simp only [getD_set_false]
    split_ifs with hij
    · rfl
    · by_contra hc
      have := hinv i (by simpa using hc)
      rw [ht] at this
      simp only [Option.some.injEq] at this
      exact hij this.symm

/-- A step that is not a `start` keeps the scheduler quiet. -/
theorem quiet_step {app app1 : CountdownApp} (hq : Quiet app) (a : Action)
    (ha : a.isStart = false) (h : step app a = some app1) : Quiet app1 := by
  cases a with
  | start => simp [Action.isStart] at ha
  | stop =>
    simp only [step] at h
    cases ht : app.ticker with
    | none =>
      rw [stopTicker_none ht] at h
      simp only [Option.some.injEq] at h
      subst h
      exact hq
    | some j =>
      rw [stopTicker_some ht] at h
      simp only [Option.some.injEq] at h
      subst h
      intro i
      simp only [getD_set_false]
      split_ifs
      · rfl
      · exact hq i
  | tick i now =>
    simp only [step] at h
    rw [quiet_tick_none hq] at h
    exact Option.noConfusion h

theorem quiet_run {app s : CountdownApp} (post : List Action) (hq : Quiet app)
    (hpost : ∀ a ∈ post, a.isStart = false) (h : run app post = some s) : Quiet s := by
  induction post generalizing app with
  | nil =>
    simp only [run, Option.some.injEq] at h
    subst h
    exact hq
  | cons a rest ih =>
    simp only [run] at h
    cases hs : step app a with
    | none =>
      rw [hs] at h
      exact Option.noConfusion h
    | some app1 =>
      rw [hs] at h
      simp only [Option.bind] at h
      exact ih (quiet_step hq a (hpost a (List.mem_cons_self _ _)) hs)
        (fun b hb => hpost b (List.mem_cons_of_mem _ hb)) h

/-- A step taken with discipline keeps the invariant that only the current ticker runs. -/
theorem onlyCurrentRuns_step {app app1 : CountdownApp} (hinv : OnlyCurrentRuns app)
    (a : Action) (hd : (a.isStart && anyRunning app) = false) (h : step app a = some app1) :
    OnlyCurrentRuns app1 := by
  cases a with
  | start =>
    simp only [Action.isStart, Bool.true_and] at hd
    have hq := (anyRunning_false_iff app).mp hd
    simp only [step, Option.some.injEq] at h
    subst h
    intro i hi
    simp only [startTicker, getD_append_true] at hi ⊢
    split_ifs at hi with he
    · rw [he]
    · rw [hq i] at hi
      exact Bool.noConfusion hi
  | stop =>
    simp only [step] at h
    have hq := quiet_of_stop hinv h
    intro i hi
    rw [hq i] at hi
    exact Bool.noConfusion hi
  | tick i now =>
    simp only [step] at h
    obtain ⟨_, h1, h2⟩ := tick_some h
    intro k hk
    rw [h1] at hk
    rw [h2]
    exact hinv k hk

theorem stop_after_disciplined {app s : CountdownApp} (pre post : List Action)
    (hinv : OnlyCurrentRuns app) (hd : disciplined app (pre ++ Action.stop :: post) = true)
    (hpost : ∀ a ∈ post, a.isStart = false)
    (h : run app (pre ++ Action.stop :: post) = some s) : Quiet s := by
  induction pre generalizing app with
  | nil =>
    simp only [List.nil_append, run] at h
    cases hs : step app Action.stop with
    | none =>
      rw [hs] at h
      exact Option.noConfusion h
    | some app1 =>
      rw [hs] at h
      simp only [Option.bind] at h
      exact quiet_run post (quiet_of_stop hinv hs) hpost h
  | cons a rest ih =>
    simp only [List.cons_append, run] at h
    simp only [List.cons_append, disciplined, Bool.and_eq_true, Bool.not_eq_true'] at hd
    cases hs : step app a with
    | none =>
      rw [hs] at h
      exact Option.noConfusion h
    | some app1 =>
      rw [hs] at h hd
      simp only [Option.bind] at h
      exact ih (onlyCurrentRuns_step hinv a hd.1 hs) hd.2 h

/-- C9, as stated, fails. After two starts and one stop, with no further start, the ticker of
the first start still ticks and `updateCountdown` is called once more. -/
theorem tick_after_stop_counterexample :
    (run CountdownApp.init
      [Action.start, Action.start, Action.stop, Action.tick 0 ⟨2024, 3, 15, 0, 0, 0, 0, 0, UTC⟩]).map
        (fun s => s.updates) = some 1 := by
  rfl

/-- C9, amended. When no `startTicker` is called while a ticker is still running, then in
every state reached after a `stopTicker` that no new start follows, no tick is enabled:
`updateCountdown` is not called again. -/
theorem no_tick_after_stop (pre post : List Action) (s : CountdownApp)
    (hd : disciplined CountdownApp.init (pre ++ Action.stop :: post) = true)
    (hpost : ∀ a ∈ post, a.isStart = false)
    (h : run CountdownApp.init (pre ++ Action.stop :: post) = some s) :
    ∀ (i : ℕ) (now : Time), step s (Action.tick i now) = none := by
  intro i now
  exact quiet_tick_none (stop_after_disciplined pre post onlyCurrentRuns_init hd hpost h) i now

/-- Witness of `no_tick_after_stop`: a start, one tick, a stop, then a second stop. -/
theorem no_tick_after_stop_witness :
    disciplined CountdownApp.init
      ([Action.start, Action.tick 0 ⟨2024, 3, 15, 0, 0, 0, 0, 0, UTC⟩] ++ Action.stop :: [Action.stop])
        = true ∧
    run CountdownApp.init
      ([Action.start, Action.tick 0 ⟨2024, 3, 15, 0, 0, 0, 0, 0, UTC⟩] ++ Action.stop :: [Action.stop])
        = some { updateCountdown (startTicker CountdownApp.init) ⟨2024, 3, 15, 0, 0, 0, 0, 0, UTC⟩ with
                  tickers := [false] } ∧
    step { updateCountdown (startTicker CountdownApp.init) ⟨2024, 3, 15, 0, 0, 0, 0, 0, UTC⟩ with
            tickers := [false] } (Action.tick 0 ⟨2024, 7, 1, 12, 30, 0, 0, 0, UTC⟩) = none :=
  ⟨rfl, rfl,
    no_tick_after_stop [Action.start, Action.tick 0 ⟨2024, 3, 15, 0, 0, 0, 0, 0, UTC⟩] [Action.stop] _
      rfl (by intro a ha; simp only [List.mem_singleton] at ha; subst ha; rfl) rfl 0
      ⟨2024, 7, 1, 12, 30, 0, 0, 0, UTC⟩⟩

/-- C10, as stated, fails. A second `startTicker` is not a no-op: it changes the state, and
after it a `stopTicker` leaves the first ticker running. -/
theorem second_start_counterexample :
    startTicker (startTicker CountdownApp.init) ≠ startTicker CountdownApp.init ∧
    (stopTicker (startTicker (startTicker CountdownApp.init))).map (fun s => s.tickers) =
      some [true, false] := by
  constructor
  · decide
  · rfl

/-- C10, amended. `stopTicker` never fails, does nothing when the ticker was never started
or when no ticker is running, and is idempotent. A second `startTicker` is not a no-op: it
makes a new ticker and stores it in `app.ticker`, and every ticker that was running keeps
running, also after the next `stopTicker`. -/
theorem stopTicker_idempotent (app : CountdownApp) :
    (stopTicker app).isSome = true ∧
    (app.ticker = none → stopTicker app = some app) ∧
    (Quiet app → stopTicker app = some app) ∧
    (stopTicker app).bind stopTicker = stopTicker app ∧
    startTicker app ≠ app ∧
    (startTicker app).ticker = some app.tickers.length ∧
    (∀ i, app.tickers.getD i false = true →
      (startTicker app).tickers.getD i false = true ∧
      ∀ app1, stopTicker (startTicker app) = some app1 → app1.tickers.getD i false = true) := by
  refine ⟨?_, stopTicker_none, ?_, ?_, ?_, rfl, ?_⟩
  · cases ht : app.ticker with
    | none => rw [stopTicker_none ht]; rfl
    | some j => rw [stopTicker_some ht]; rfl
  · intro hq
    cases ht : app.ticker with
    | none => exact stopTicker_none ht
    | some j =>
      rw [stopTicker_some ht, set_false_of_not_running _ _ (hq j)]
  · cases ht : app.ticker with
    | none =>
      rw [stopTicker_none ht]
      exact stopTicker_none ht
    | some j =>
      have h2 := stopTicker_some (i := j)
        (show ({ app with tickers := app.tickers.set j false } : CountdownApp).ticker = some j
          from ht)
      rw [stopTicker_some ht]
      simp only [Option.bind]
      rw [h2]
      simp only [List.set_set]
  · intro h
    have hl : (startTicker app).tickers.length = app.tickers.length := by rw [h]
    simp [startTicker] at hl
  · intro i hi
    have hlen : i < app.tickers.length := by
      by_contra hc
      rw [List.getD_eq_getElem?_getD, List.getElem?_eq_none (by omega)] at hi
      exact Bool.noConfusion hi
    have h1 : (startTicker app).tickers.getD i false = true := by
      simp only [startTicker, getD_append_true]
      rw [if_neg (by omega), hi]
    refine ⟨h1, ?_⟩
    intro app1 hs
    rw [stopTicker_some (i := app.tickers.length) rfl] at hs
    simp only [Option.some.injEq] at hs
    subst hs
    simp only [getD_set_false]
    rw [if_neg (by omega)]
    exact h1

/-- Witness of `stopTicker_idempotent` on the app `main` builds, never started. -/
theorem stopTicker_idempotent_witness :
    CountdownApp.init.ticker = none ∧ stopTicker CountdownApp.init = some CountdownApp.init :=
  ⟨rfl, (stopTicker_idempotent CountdownApp.init).2.1 rfl⟩

end YearCountdown
